import Mathlib

/-
Verification of the denokv PostgreSQL backend (crate `denokv_postgres`).

The development shallowly embeds the transactional core of the backend:

* `src/postgres/backend.rs` — `PostgresBackend::{read_range, atomic_write,
  handle_sum_mutation, handle_min_mutation, handle_max_mutation,
  dequeue_next_message, encode_value}` and the schema of
  `initialize_schema` (primary keys and the foreign key of `queue_running`);
* `src/postgres/message_handle.rs` — `PostgresMessageHandle::finish`;
* `src/postgres/lib.rs` — the `Postgres::atomic_write` facade;
* `src/postgres/notifier.rs` — only through the facade trace (which keys are
  passed to `notify_key_update`).

The SQL store is modelled as a list of rows with the primary-key invariant
(no two rows share a key); BYTEA values are lists of naturals; SQL BYTEA
comparison is byte-wise lexicographic.  Machine integers are modelled as
`Nat`/`Int` with explicit reductions modulo `2 ^ 64`; the Rust `i64`
operations of the numeric mutations are embedded through the
two's-complement bit pattern of the stored 8 bytes.  Fallible paths return
`Except`; a Rust panic (out of `copy_from_slice` on a length mismatch) is a
distinguished failure constructor, separate from the `InvalidData` error
that the backend returns for unknown encodings.
-/

namespace DenoKvPg

/-- Byte strings (BYTEA values, keys, payloads, versionstamps). -/
abbrev Bytes := List Nat

/-- `denokv_proto::KvValue`: the three tagged value variants. -/
inductive KvValue where
  | v8 (data : Bytes)
  | bytes (data : Bytes)
  | u64 (n : Nat)
deriving DecidableEq

/-- The `PostgresError` variants reachable from the embedded operations. -/
inductive PgError where
  | invalidData (msg : String)
  | databaseError (msg : String)
deriving DecidableEq

/-- Outcome of decoding a stored row in `read_range`: the backend returns
`PostgresError::InvalidData` for unknown encoding tags, while a stored
tag-2 value whose length is not 8 (and a versionstamp whose length is not
10) hits `copy_from_slice`, which panics.  The panic is kept distinct from
the error return. -/
inductive DecodeFailure where
  | invalidData (msg : String)
  | panicked (msg : String)
deriving DecidableEq

/-- A row of the `kv_store` table (schema in `initialize_schema`).
`createdAt`/`updatedAt` model the TIMESTAMPTZ columns as abstract instants;
`expiresAt` is the nullable BIGINT epoch-milliseconds column. -/
structure Row where
  key : Bytes
  value : Bytes
  encoding : Int
  versionstamp : Bytes
  createdAt : Int
  updatedAt : Int
  expiresAt : Option Int
deriving DecidableEq

/-- A row of the `queue_messages` table. -/
structure QueueMessage where
  id : Nat
  payload : Bytes
  deadline : Int
  keysIfUndelivered : List Bytes
  backoffSchedule : Option (List Nat)
  retryCount : Nat
deriving DecidableEq

/-- A row of the `queue_running` table (the lease table). -/
structure Lease where
  messageId : Nat
  deadline : Int
  startedAt : Int
  updatedAt : Int
deriving DecidableEq

/-- The whole SQL database: the KV table, the two queue tables, and the
supply used for `gen_random_uuid()` defaults of `queue_messages.id`. -/
structure State where
  kv : List Row
  messages : List QueueMessage
  running : List Lease
  nextId : Nat
deriving DecidableEq

def emptyState : State := ⟨[], [], [], 0⟩

/-- `denokv_proto::Check`. -/
structure Check where
  key : Bytes
  versionstamp : Option Bytes
deriving DecidableEq

/-- `denokv_proto::MutationKind`.  The backend ignores the `min_v8`,
`max_v8` and `clamp` fields of `Sum` (`MutationKind::Sum { value, .. }`),
so only the value is carried. -/
inductive MutationKind where
  | set (value : KvValue)
  | delete
  | sum (value : KvValue)
  | min (value : KvValue)
  | max (value : KvValue)
  | setSuffixVersionstampedKey (value : KvValue)
deriving DecidableEq

/-- `denokv_proto::Mutation`; `expireAt` is the optional expire instant,
already projected to epoch milliseconds as the backend does with
`expire_at.map(timestamp_millis)`. -/
structure Mutation where
  key : Bytes
  kind : MutationKind
  expireAt : Option Int
deriving DecidableEq

/-- `denokv_proto::Enqueue`, with the deadline in epoch milliseconds. -/
structure Enqueue where
  payload : Bytes
  deadline : Int
  keysIfUndelivered : List Bytes
  backoffSchedule : Option (List Nat)
deriving DecidableEq

/-- `denokv_proto::AtomicWrite`. -/
structure AtomicWrite where
  checks : List Check
  mutations : List Mutation
  enqueues : List Enqueue
deriving DecidableEq

/-- `denokv_proto::CommitResult`. -/
structure CommitResult where
  versionstamp : Bytes
deriving DecidableEq

/-- `denokv_proto::ReadRange`. `limit` models the `NonZeroU32` as a `Nat`. -/
structure ReadRange where
  start : Bytes
  «end» : Bytes
  limit : Nat
  reverse : Bool
deriving DecidableEq

/-- `denokv_proto::KvEntry`. -/
structure KvEntry where
  key : Bytes
  value : KvValue
  versionstamp : Bytes
deriving DecidableEq

/-- `PostgresMessageHandle` (the pool handle is irrelevant to the model). -/
structure MessageHandle where
  id : Nat
  payload : Option Bytes
deriving DecidableEq

/-! ### Machine-integer helpers

`u64::to_le_bytes` / `u64::from_le_bytes`, and the `i64` view used by the
numeric mutations (`i64::from_le_bytes` reads the stored 8 bytes as a
signed two's-complement integer; `to_le_bytes` writes the bit pattern
back). -/

/-- The 8 little-endian bytes of `n % 2 ^ 64` (`to_le_bytes`). -/
def toLe8 (n : Nat) : Bytes :=
  [n % 256, n / 256 % 256, n / 256 ^ 2 % 256, n / 256 ^ 3 % 256,
   n / 256 ^ 4 % 256, n / 256 ^ 5 % 256, n / 256 ^ 6 % 256, n / 256 ^ 7 % 256]

/-- Little-endian byte-string value (`from_le_bytes` on the bit level). -/
def leBytesToNat (l : Bytes) : Nat :=
  l.foldr (fun b acc => b + 256 * acc) 0

/-- Signed (two's-complement) reading of a 64-bit pattern:
`i64::from_le_bytes` applied to the bytes of `n`. -/
def toI64 (n : Nat) : Int := if n < 2 ^ 63 then (n : Int) else (n : Int) - 2 ^ 64

/-- The 64-bit pattern of a signed value (`i64::to_le_bytes` bit level). -/
def i64Bits (x : Int) : Nat := (x % 2 ^ 64).toNat

/-- `u64 as i64`: reinterpret the unsigned bit pattern as signed. -/
def i64OfU64 (v : Nat) : Int := toI64 (v % 2 ^ 64)

/-- Two's-complement 64-bit addition — the behaviour of the release-mode
Rust `+` on `i64` used by `handle_sum_mutation` (wrap-around on
overflow). -/
def wrapAdd (a b : Int) : Int := (a + b + 2 ^ 63) % 2 ^ 64 - 2 ^ 63

theorem toLe8_length (n : Nat) : (toLe8 n).length = 8 := rfl

theorem leBytesToNat_toLe8 (n : Nat) : leBytesToNat (toLe8 n) = n % 2 ^ 64 := by
  simp only [leBytesToNat, toLe8, List.foldr]
  omega

theorem i64Bits_lt (x : Int) : i64Bits x < 2 ^ 64 := by
  unfold i64Bits
  omega

theorem toI64_i64Bits (x : Int) (h1 : -2 ^ 63 ≤ x) (h2 : x < 2 ^ 63) :
    toI64 (i64Bits x) = x := by
  unfold toI64 i64Bits
  split <;> omega

theorem i64Bits_toI64 (n : Nat) (h : n < 2 ^ 64) : i64Bits (toI64 n) = n := by
  unfold toI64 i64Bits
  split <;> omega

theorem wrapAdd_lb (a b : Int) : -2 ^ 63 ≤ wrapAdd a b := by
  unfold wrapAdd
  omega

theorem wrapAdd_ub (a b : Int) : wrapAdd a b < 2 ^ 63 := by
  unfold wrapAdd
  omega

theorem toI64_lb (n : Nat) : -2 ^ 63 ≤ toI64 n := by
  unfold toI64
  split <;> omega

theorem toI64_ub (n : Nat) (h : n < 2 ^ 64) : toI64 n < 2 ^ 63 := by
  unfold toI64
  split <;> omega

theorem i64OfU64_eq (v : Nat) (h : v < 2 ^ 64) : i64OfU64 v = toI64 v := by
  unfold i64OfU64
  rw [Nat.mod_eq_of_lt h]

theorem leBytesToNat_lt (l : Bytes) (hb : ∀ b ∈ l, b < 256) :
    leBytesToNat l < 256 ^ l.length := by
  induction l with
  | nil => simp [leBytesToNat]
  | cons b rest ih =>
    have hbl : b < 256 := hb b (List.mem_cons_self _ _)
    have hrest : leBytesToNat rest < 256 ^ rest.length :=
      ih fun x hx => hb x (List.mem_cons_of_mem _ hx)
    have hmul : 256 * (leBytesToNat rest + 1) ≤ 256 * 256 ^ rest.length :=
      Nat.mul_le_mul_left 256 (by omega)
    have : leBytesToNat (b :: rest) = b + 256 * leBytesToNat rest := rfl
    simp only [List.length_cons, pow_succ]
    omega

theorem leBytesToNat_lt_u64 (l : Bytes) (hb : ∀ b ∈ l, b < 256)
    (hl : l.length = 8) : leBytesToNat l < 2 ^ 64 := by
  have := leBytesToNat_lt l hb
  rw [hl] at this
  omega

/-! ### Byte-wise lexicographic order (SQL BYTEA comparison) -/

/-- Strict byte-wise lexicographic comparison, as PostgreSQL compares
BYTEA values (`key < $2`). -/
def lexLt : Bytes → Bytes → Bool
  | [], [] => false
  | [], _ :: _ => true
  | _ :: _, [] => false
  | a :: as, b :: bs => if a < b then true else if b < a then false else lexLt as bs

/-- Non-strict byte-wise lexicographic comparison (`key >= $1`). -/
def lexLe (a b : Bytes) : Bool := lexLt a b || a == b

theorem lexLt_irrefl : ∀ a : Bytes, lexLt a a = false
  | [] => rfl
  | x :: as => by simp [lexLt, lexLt_irrefl as]

theorem lexLt_asymm : ∀ a b : Bytes, lexLt a b = true → lexLt b a = false
  | [], [], h => by simp [lexLt] at h
  | [], _ :: _, _ => rfl
  | _ :: _, [], h => by simp [lexLt] at h
  | a :: as, b :: bs, h => by
    simp only [lexLt] at h ⊢
    rcases Nat.lt_trichotomy a b with hab | hab | hab
    · simp [hab, Nat.lt_asymm hab]
    · subst hab
      simp only [Nat.lt_irrefl, if_false] at h ⊢
      exact lexLt_asymm as bs h
    · simp [hab, Nat.lt_asymm hab] at h

theorem lexLt_trans : ∀ a b c : Bytes,
    lexLt a b = true → lexLt b c = true → lexLt a c = true
  | [], _ :: _, _ :: _, _, _ => rfl
  | [], _ :: _, [], _, h => by simp [lexLt] at h
  | [], [], _, h, _ => by simp [lexLt] at h
  | _ :: _, [], _, h, _ => by simp [lexLt] at h
  | _ :: _, _ :: _, [], _, h => by simp [lexLt] at h
  | a :: as, b :: bs, c :: cs, h1, h2 => by
    simp only [lexLt] at h1 h2 ⊢
    rcases Nat.lt_trichotomy a b with hab | hab | hab
    · rcases Nat.lt_trichotomy b c with hbc | hbc | hbc
      · simp [Nat.lt_trans hab hbc]
      · subst hbc; simp [hab]
      · simp [hbc, Nat.lt_asymm hbc] at h2
    · subst hab
      simp only [Nat.lt_irrefl, if_false] at h1
      rcases Nat.lt_trichotomy a c with hac | hac | hac
      · simp [hac]
      · subst hac
        simp only [Nat.lt_irrefl, if_false] at h2 ⊢
        exact lexLt_trans as bs cs h1 h2
      · simp [hac, Nat.lt_asymm hac] at h2
    · simp [hab, Nat.lt_asymm hab] at h1

theorem lexLt_connex : ∀ a b : Bytes,
    lexLt a b = false → lexLt b a = false → a = b
  | [], [], _, _ => rfl
  | [], _ :: _, h, _ => by simp [lexLt] at h
  | _ :: _, [], _, h => by simp [lexLt] at h
  | a :: as, b :: bs, h1, h2 => by
    simp only [lexLt] at h1 h2
    rcases Nat.lt_trichotomy a b with hab | hab | hab
    · simp [hab] at h1
    · subst hab
      simp only [Nat.lt_irrefl, if_false] at h1 h2
      rw [lexLt_connex as bs h1 h2]
    · simp [hab] at h2

theorem lexLe_refl (a : Bytes) : lexLe a a = true := by
  simp [lexLe]

theorem lexLe_total (a b : Bytes) : (lexLe a b || lexLe b a) = true := by
  unfold lexLe
  cases h1 : lexLt a b
  · cases h2 : lexLt b a
    · have := lexLt_connex a b h1 h2
      subst this
      simp
    · simp
  · simp

theorem lexLe_trans (a b c : Bytes) :
    lexLe a b = true → lexLe b c = true → lexLe a c = true := by
  unfold lexLe
  intro h1 h2
  simp only [Bool.or_eq_true, beq_iff_eq] at h1 h2 ⊢
  rcases h1 with h1 | h1
  · rcases h2 with h2 | h2
    · exact Or.inl (lexLt_trans a b c h1 h2)
    · subst h2; exact Or.inl h1
  · subst h1
    exact h2

theorem lexLt_of_lexLe_ne (a b : Bytes) (h : lexLe a b = true) (hne : a ≠ b) :
    lexLt a b = true := by
  unfold lexLe at h
  simp only [Bool.or_eq_true, beq_iff_eq] at h
  rcases h with h | h
  · exact h
  · exact absurd h hne

theorem not_lexLe_lexLt (s k : Bytes) :
    ¬(lexLe s k = true ∧ lexLt k s = true) := by
  rintro ⟨h1, h2⟩
  unfold lexLe at h1
  simp only [Bool.or_eq_true, beq_iff_eq] at h1
  rcases h1 with h1 | h1
  · rw [lexLt_asymm s k h1] at h2
    cases h2
  · subst h1
    rw [lexLt_irrefl] at h2
    cases h2

/-! ### Encoder (`PostgresBackend::encode_value`) and the decoding match
of `read_range` -/

/-- `encode_value`: value bytes plus the integer encoding tag. -/
def encodeValue : KvValue → Bytes × Int
  | .v8 d => (d, 1)
  | .bytes d => (d, 3)
  | .u64 n => (toLe8 n, 2)

/-- The decoding `match encoding` of `read_range` (backend.rs lines
145-154).  Tag 2 copies the stored bytes into an 8-byte buffer with
`copy_from_slice`, which panics unless the length is exactly 8; unknown
tags return `PostgresError::InvalidData`. -/
def decodeValue (value : Bytes) (encoding : Int) : Except DecodeFailure KvValue :=
  if encoding = 1 then .ok (.v8 value)
  else if encoding = 2 then
    if value.length = 8 then .ok (.u64 (leBytesToNat value))
    else .error (.panicked "copy_from_slice: source slice length does not match destination")
  else if encoding = 3 then .ok (.bytes value)
  else .error (.invalidData "Unknown encoding")

/-- Building one `KvEntry` from a row, as the `read_range` loop does: decode
the value, then copy the versionstamp into a 10-byte buffer (again a
panicking `copy_from_slice` when the stored length differs). -/
def rowToEntry (r : Row) : Except DecodeFailure KvEntry :=
  match decodeValue r.value r.encoding with
  | .error e => .error e
  | .ok v =>
    if r.versionstamp.length = 10 then .ok ⟨r.key, v, r.versionstamp⟩
    else .error (.panicked "copy_from_slice: source slice length does not match destination")

/-- The `for row in rows` accumulation loop of `read_range`. -/
def buildEntries : List Row → Except DecodeFailure (List KvEntry)
  | [] => .ok []
  | r :: rest =>
    match rowToEntry r with
    | .error e => .error e
    | .ok entry =>
      match buildEntries rest with
      | .error e => .error e
      | .ok es => .ok (entry :: es)

/-- `PostgresBackend::read_range`: rows satisfying
`key >= $1 AND key < $2`, ordered by key (the source issues one query with
`ORDER BY key DESC` when `reverse` and one with `ORDER BY key ASC`
otherwise), capped at `limit`, then decoded in scan order. -/
def readRange (st : State) (req : ReadRange) : Except DecodeFailure (List KvEntry) :=
  if req.reverse then
    buildEntries (((st.kv.filter fun r =>
      lexLe req.start r.key && lexLt r.key req.«end»).mergeSort
        fun a b => lexLe b.key a.key).take req.limit)
  else
    buildEntries (((st.kv.filter fun r =>
      lexLe req.start r.key && lexLt r.key req.«end»).mergeSort
        fun a b => lexLe a.key b.key).take req.limit)

/-! ### Checks (`atomic_write` precondition loop) -/

/-- `SELECT versionstamp FROM kv_store WHERE key = $1`. -/
def currentVersionstamp (st : State) (key : Bytes) : Option Bytes :=
  (st.kv.find? (fun r => r.key == key)).map Row.versionstamp

/-- One check of the precondition loop: with `Some(expected)` the current
versionstamp must equal it (absent counts as a mismatch); with `None` no
row may exist. -/
def checkPasses (st : State) (c : Check) : Bool :=
  match c.versionstamp with
  | some expected => currentVersionstamp st c.key == some expected
  | none => currentVersionstamp st c.key == none

/-- The `for check in &write.checks` loop: the first failing check makes
`atomic_write` return `Ok(None)`. -/
def checksPass (st : State) : List Check → Bool
  | [] => true
  | c :: rest => checkPasses st c && checksPass st rest

/-! ### Mutations -/

/-- The `MutationKind::Set` upsert: `INSERT ... ON CONFLICT (key) DO
UPDATE SET value, value_encoding, versionstamp, expires_at,
updated_at = NOW()`.  On conflict `created_at` is untouched; a fresh row
takes the `created_at DEFAULT NOW()`. -/
def setMutation (st : State) (key : Bytes) (value : KvValue)
    (expireAt : Option Int) (vs : Bytes) (now : Int) : State :=
  let valueBytes := (encodeValue value).1
  let encoding := (encodeValue value).2
  if st.kv.any (fun r => r.key == key) then
    { st with kv := st.kv.map fun r =>
        if r.key == key then
          { r with value := valueBytes, encoding := encoding, versionstamp := vs,
                   expiresAt := expireAt, updatedAt := now }
        else r }
  else
    { st with kv := st.kv ++ [⟨key, valueBytes, encoding, vs, now, now, expireAt⟩] }

/-- The upsert shared verbatim by `handle_sum_mutation`,
`handle_min_mutation` and `handle_max_mutation`:
`INSERT (key, value, value_encoding = 2, versionstamp, updated_at = NOW())
ON CONFLICT (key) DO UPDATE SET value, versionstamp, updated_at = NOW()
WHERE kv_store.value_encoding = 2`.  On conflict with a row whose tag is
not 2 the conditional update applies to no row; a fresh row has
`expires_at` NULL and `created_at DEFAULT NOW()`. -/
def numericUpsert (st : State) (key : Bytes) (newValueBytes : Bytes)
    (vs : Bytes) (now : Int) : State :=
  if st.kv.any (fun r => r.key == key) then
    { st with kv := st.kv.map fun r =>
        if r.key == key && r.encoding == 2 then
          { r with value := newValueBytes, versionstamp := vs, updatedAt := now }
        else r }
  else
    { st with kv := st.kv ++ [⟨key, newValueBytes, 2, vs, now, now, none⟩] }

/-- Shared body of `handle_sum_mutation`, `handle_min_mutation` and
`handle_max_mutation` — the three source functions are textually identical
except for the operation name in the error strings and the `i64` combine
step (`current_int + v` / `current_int.min(v)` / `current_int.max(v)`).
The operand must encode with tag 2; the current row is looked up with
`SELECT value FROM kv_store WHERE key = $1 AND value_encoding = 2`; an
8-byte current value is read as a signed i64 and combined, any other
situation stores the operand bits directly. -/
def handleNumericMutation (opName : String) (combine : Int → Int → Int)
    (st : State) (key : Bytes) (value : KvValue) (vs : Bytes) (now : Int) :
    Except PgError State :=
  let encoding := (encodeValue value).2
  if encoding ≠ 2 then
    .error (.invalidData (opName ++ " operation only supports U64 values"))
  else
    match value with
    | .u64 v =>
      let operand : Int := i64OfU64 v
      let currentRow := st.kv.find? (fun r => r.key == key && r.encoding == 2)
      let newValue : Int :=
        match currentRow with
        | some r =>
          if r.value.length = 8 then combine (toI64 (leBytesToNat r.value)) operand
          else operand
        | none => operand
      .ok (numericUpsert st key (toLe8 (i64Bits newValue)) vs now)
    | _ => .error (.invalidData (opName ++ " operation only supports U64 values"))

/-- `PostgresBackend::handle_sum_mutation` (release-mode `+` wraps). -/
def handleSumMutation : State → Bytes → KvValue → Bytes → Int → Except PgError State :=
  handleNumericMutation "Sum" wrapAdd

/-- `PostgresBackend::handle_min_mutation`. -/
def handleMinMutation : State → Bytes → KvValue → Bytes → Int → Except PgError State :=
  handleNumericMutation "Min" fun a b => Min.min a b

/-- `PostgresBackend::handle_max_mutation`. -/
def handleMaxMutation : State → Bytes → KvValue → Bytes → Int → Except PgError State :=
  handleNumericMutation "Max" fun a b => Max.max a b

/-- PostgreSQL message for a duplicate-primary-key INSERT into `kv_store`
(the `SetSuffixVersionstampedKey` INSERT has no ON CONFLICT clause). -/
def dupKeyMsg : String := "duplicate key value violates unique constraint kv_store_pkey"

/-- One arm of the `match &mutation.kind` dispatch of `atomic_write`. -/
def applyMutation (vs : Bytes) (now : Int) (st : State) (m : Mutation) :
    Except PgError State :=
  match m.kind with
  | .set value => .ok (setMutation st m.key value m.expireAt vs now)
  | .delete => .ok { st with kv := st.kv.filter fun r => !(r.key == m.key) }
  | .sum value => handleSumMutation st m.key value vs now
  | .min value => handleMinMutation st m.key value vs now
  | .max value => handleMaxMutation st m.key value vs now
  | .setSuffixVersionstampedKey value =>
    let newKey := m.key ++ vs
    if st.kv.any (fun r => r.key == newKey) then
      .error (.databaseError dupKeyMsg)
    else
      .ok { st with kv :=
        st.kv ++ [⟨newKey, (encodeValue value).1, (encodeValue value).2, vs, now, now, m.expireAt⟩] }

/-- The `for mutation in &write.mutations` loop. -/
def applyMutations (vs : Bytes) (now : Int) : State → List Mutation → Except PgError State
  | st, [] => .ok st
  | st, m :: rest =>
    match applyMutation vs now st m with
    | .error e => .error e
    | .ok st1 => applyMutations vs now st1 rest

/-- Client-side parameter-type error of the enqueue INSERT: the source
serializes `keys_if_undelivered` (and the backoff schedule) to JSON
`String`s and binds them to the BYTEA[] / INTEGER[] columns, which the
driver rejects when serializing the parameters. -/
def enqueueBindErrMsg : String :=
  "error serializing parameter 2: cannot convert between the Rust type alloc::string::String and the Postgres type _bytea"

/-- The `for enqueue in &write.enqueues` loop of `atomic_write`.  Each
iteration runs `INSERT INTO queue_messages (payload, deadline,
keys_if_undelivered, backoff_schedule) VALUES ($1, $2, $3, $4)` binding
the JSON-`String` forms of the undelivered-keys list and backoff schedule
to the BYTEA[] / INTEGER[] columns; that parameter-type mismatch makes the
first enqueue error and abort the transaction.  An empty enqueue list
performs no insert and succeeds. -/
def applyEnqueues : State → List Enqueue → Except PgError State
  | st, [] => .ok st
  | _, _ :: _ => .error (.databaseError enqueueBindErrMsg)

/-- `PostgresBackend::atomic_write`, one SQL transaction: run the checks
(any failure rolls back and yields `Ok(None)`), then apply the mutations
with the single generated versionstamp `vs`, then the enqueues, and commit
returning `Some(CommitResult { versionstamp })`.  Any mutation or enqueue
error rolls the transaction back, so the caller keeps the pre-state. -/
def atomicWrite (vs : Bytes) (now : Int) (st : State) (w : AtomicWrite) :
    Except PgError (Option CommitResult × State) :=
  if checksPass st w.checks then
    match applyMutations vs now st w.mutations with
    | .error e => .error e
    | .ok st1 =>
      match applyEnqueues st1 w.enqueues with
      | .error e => .error e
      | .ok st2 => .ok (some ⟨vs⟩, st2)
  else
    .ok (none, st)

/-! ### Queue operations -/

/-- PostgreSQL error for the dequeue SELECT: the WHERE clause compares the
BIGINT `deadline` column with `NOW()` (timestamptz), and PostgreSQL has no
such operator, so the statement fails to prepare. -/
def dequeueOpErrMsg : String :=
  "operator does not exist: bigint <= timestamp with time zone"

/-- `PostgresBackend::dequeue_next_message`.  The dequeue transaction can
never reach its selection logic: its first statement,
`SELECT ... FROM queue_messages WHERE deadline <= NOW() AND id NOT IN
(SELECT message_id FROM queue_running) ORDER BY deadline ASC LIMIT 1 FOR
UPDATE SKIP LOCKED`, compares the BIGINT `deadline` column (written as
epoch milliseconds by the enqueue path) against the timestamptz `NOW()`,
an operator PostgreSQL does not have, so `query_opt` errors and the error
propagates out of the function for every queue state.  The later source
lines are unreachable and themselves broken: `id` and `deadline` are read
as `String` from UUID / BIGINT columns, the BIGINT-millisecond deadline is
parsed with the timestamp format `%Y-%m-%d %H:%M:%S%.f` (the coded
`InvalidData("Invalid deadline format")` path), and the lease INSERT binds
`String` parameters to the UUID / BIGINT columns of `queue_running`. -/
def dequeueNextMessage (_now : Int) (_st : State) :
    Except PgError (Option (MessageHandle × State)) :=
  .error (.databaseError dequeueOpErrMsg)

/-- `PostgresMessageHandle::finish`: with `success` it runs only
`DELETE FROM queue_messages WHERE id = $1`; the schema declares
`queue_running.message_id REFERENCES queue_messages(id)` without
`ON DELETE CASCADE`, so the delete violates the foreign key whenever the
lease row still exists.  Without `success` it deletes only the lease
row.  (The source binds `self.id.to_string()` — text — to the UUID
column; the model reads each DELETE at its SQL semantics, the reading most
generous to the source: even then a leased message cannot be finished
without error.) -/
def MessageHandle.finish (h : MessageHandle) (success : Bool) (st : State) :
    Except PgError State :=
  if success then
    if st.messages.any (fun m => m.id == h.id) && st.running.any (fun l => l.messageId == h.id) then
      .error (.databaseError
        "update or delete on table queue_messages violates foreign key constraint on queue_running")
    else
      .ok { st with messages := st.messages.filter fun m => !(m.id == h.id) }
  else
    .ok { st with running := st.running.filter fun l => !(l.messageId == h.id) }

/-! ### Database facade (`lib.rs`) -/

/-- `Postgres::atomic_write` (lib.rs lines 218-259): acquires a
connection, delegates to the backend and returns its result.  The third
component is the trace of keys passed to
`PostgresNotifier::notify_key_update` during the call; the facade contains
no notifier call, so the trace is empty on every path. -/
def facadeAtomicWrite (vs : Bytes) (now : Int) (st : State) (w : AtomicWrite) :
    Except PgError (Option CommitResult × State × List Bytes) :=
  match atomicWrite vs now st w with
  | .error e => .error e
  | .ok (res, st1) => .ok (res, st1, ([] : List Bytes))

/-- Modelled from the spec: section 4.4.3 step 5 requires the facade to
invoke `Notifier.notify(key)` for every mutated key on commit success —
the keys of Sets, Deletes, numeric accumulators, and the
suffix-versionstamped key of `SetSuffixVersionstampedKey` commits. -/
def specMutatedKeys (vs : Bytes) (w : AtomicWrite) : List Bytes :=
  w.mutations.map fun m =>
    match m.kind with
    | .setSuffixVersionstampedKey _ => m.key ++ vs
    | _ => m.key

/-! ### Store well-formedness (invariants maintained by the schema and the
write path: unique primary keys, known tags, 8-byte tag-2 values, 10-byte
versionstamps) -/

def wellFormedRow (r : Row) : Prop :=
  (r.encoding = 1 ∨ r.encoding = 2 ∨ r.encoding = 3) ∧
  (r.encoding = 2 → r.value.length = 8) ∧
  r.versionstamp.length = 10

instance (r : Row) : Decidable (wellFormedRow r) := by
  unfold wellFormedRow
  infer_instance

def WellFormedStore (st : State) : Prop :=
  (∀ r ∈ st.kv, wellFormedRow r) ∧ (st.kv.map Row.key).Nodup

instance (st : State) : Decidable (WellFormedStore st) := by
  unfold WellFormedStore
  infer_instance

/-- Whether a value is representable by the Rust protocol types (the u64
payload fits in 64 bits). -/
def wfValue : KvValue → Prop
  | .u64 n => n < 2 ^ 64
  | _ => True

instance (v : KvValue) : Decidable (wfValue v) := by
  unfold wfValue
  cases v <;> infer_instance

/-! ### Concrete fixtures -/

def vsA : Bytes := [0, 1, 2, 3, 4, 5, 6, 7, 8, 9]

def vsB : Bytes := [9, 8, 7, 6, 5, 4, 3, 2, 1, 0]

/-- A store holding one tag-1 (V8) row under key `[107]`. -/
def st5 : State := ⟨[⟨[107], [120], 1, vsB, 0, 0, none⟩], [], [], 0⟩

/-! ### C1 -/

theorem checkPasses_false_iff (st : State) (c : Check) :
    checkPasses st c = false ↔
      (match c.versionstamp with
       | some expected => currentVersionstamp st c.key ≠ some expected
       | none => ∃ v, currentVersionstamp st c.key = some v) := by
  unfold checkPasses
  cases hv : c.versionstamp with
  | some expected =>
    simp [beq_eq_false_iff_ne]
  | none =>
    cases hcur : currentVersionstamp st c.key <;> simp

theorem checksPass_false_iff (st : State) (cs : List Check) :
    checksPass st cs = false ↔ ∃ c ∈ cs, checkPasses st c = false := by
  induction cs with
  | nil => simp [checksPass]
  | cons c rest ih =>
    simp only [checksPass, Bool.and_eq_false_iff, ih, List.mem_cons]
    constructor
    · rintro (h | ⟨c1, hc1, h1⟩)
      · exact ⟨c, Or.inl rfl, h⟩
      · exact ⟨c1, Or.inr hc1, h1⟩
    · rintro ⟨c1, hc1 | hc1, h1⟩
      · subst hc1; exact Or.inl h1
      · exact Or.inr ⟨c1, hc1, h1⟩

/-- C1: `atomic_write` returns `Ok(None)` exactly when some check fails —
a check with expected versionstamp `Some(v)` fails when the current
versionstamp of the key differs from `v` (absent-versus-present
included), and a check with expected `None` fails when a row for the key
exists.  In that case the transaction is rolled back before any mutation
or enqueue: the returned state is the unchanged pre-state, and no error is
raised. -/
theorem atomicWrite_none_iff_check_fails (vs : Bytes) (now : Int) (st st' : State)
    (w : AtomicWrite) :
    atomicWrite vs now st w = .ok (none, st') ↔
      ((∃ c ∈ w.checks,
          match c.versionstamp with
          | some expected => currentVersionstamp st c.key ≠ some expected
          | none => ∃ v, currentVersionstamp st c.key = some v) ∧
        st' = st) := by
  constructor
  · intro h
    unfold atomicWrite at h
    cases hc : checksPass st w.checks with
    | true =>
      rw [hc, if_pos rfl] at h
      cases hm : applyMutations vs now st w.mutations with
      | error e => rw [hm] at h; cases h
      | ok st1 =>
        rw [hm] at h
        have h2 : (match applyEnqueues st1 w.enqueues with
            | Except.error e => Except.error e
            | Except.ok st2 =>
              Except.ok (some ({ versionstamp := vs } : CommitResult), st2)) =
            Except.ok ((none : Option CommitResult), st') := h
        cases hq : applyEnqueues st1 w.enqueues with
        | error e => rw [hq] at h2; cases h2
        | ok st2 => rw [hq] at h2; simp at h2
    | false =>
      rw [hc] at h
      simp only [Bool.false_eq_true, if_false, Except.ok.injEq, Prod.mk.injEq, true_and] at h
      refine ⟨?_, h.symm⟩
      have := (checksPass_false_iff st w.checks).mp hc
      rcases this with ⟨c, hcmem, hcfail⟩
      exact ⟨c, hcmem, (checkPasses_false_iff st c).mp hcfail⟩
  · rintro ⟨⟨c, hcmem, hcfail⟩, hst⟩
    rw [hst]
    unfold atomicWrite
    have hfalse : checksPass st w.checks = false :=
      (checksPass_false_iff st w.checks).mpr
        ⟨c, hcmem, (checkPasses_false_iff st c).mpr hcfail⟩
    rw [hfalse]
    simp

/-! ### C2 -/

/-- C2 (code defect): a committed write with one `Set` mutation returns
from the facade with an empty notifier trace — `Postgres::atomic_write` in
`lib.rs` never calls `notify_key_update` — while the mutated-key list the
spec requires the facade to notify is nonempty. -/
theorem facade_commit_notifies_no_keys :
    facadeAtomicWrite vsA 0 emptyState ⟨[], [⟨[97], .set (.bytes [120]), none⟩], []⟩ =
      .ok (some ⟨vsA⟩, ⟨[⟨[97], [120], 3, vsA, 0, 0, none⟩], [], [], 0⟩, ([] : List Bytes)) ∧
    specMutatedKeys vsA ⟨[], [⟨[97], .set (.bytes [120]), none⟩], []⟩ = [[97]] :=
  ⟨rfl, rfl⟩

/-! ### C4 -/

/-- C4 (code defect): for a dequeued message — one whose `queue_running`
lease row exists — `finish(success = true)` runs only
`DELETE FROM queue_messages WHERE id = $1`; the schema declares the
foreign key without `ON DELETE CASCADE` and no explicit lease delete
precedes, so the call fails with a foreign-key violation instead of
removing both rows without error. -/
theorem finish_success_violates_foreign_key :
    MessageHandle.finish ⟨0, some [1, 2, 3]⟩ true
        ⟨[], [⟨0, [1, 2, 3], -1, [], none, 0⟩], [⟨0, -1, 0, 0⟩], 1⟩ =
      .error (.databaseError
        "update or delete on table queue_messages violates foreign key constraint on queue_running") :=
  rfl

/-! ### C5 -/

/-- C5 counterexample: a `Sum` with u64 operand `5` on key `[107]`, whose
stored row has encoding tag 1, commits successfully and leaves the store
unchanged — it does not fail with `InvalidData`. -/
theorem sum_on_v8_row_commits_without_error :
    atomicWrite vsA 0 st5 ⟨[], [⟨[107], .sum (.u64 5), none⟩], []⟩ =
      .ok (some ⟨vsA⟩, st5) := rfl

/-- C5 (amended): a `Sum` mutation with u64 operand whose target key holds
an existing row with encoding tag ≠ 2 is silently skipped: the lookup with
`value_encoding = 2` misses the row and the conditional upsert updates
nothing, so the handler succeeds with the store unchanged and raises no
`InvalidData` error. -/
theorem sum_on_non_u64_row_is_silently_skipped
    (st : State) (key : Bytes) (v : Nat) (vs : Bytes) (now : Int)
    (hex : ∃ r ∈ st.kv, r.key = key)
    (hall : ∀ r ∈ st.kv, r.key = key → r.encoding ≠ 2) :
    handleSumMutation st key (.u64 v) vs now = .ok st := by
  unfold handleSumMutation handleNumericMutation
  have hfind : st.kv.find? (fun r => r.key == key && r.encoding == 2) = none := by
    rw [List.find?_eq_none]
    intro r hr hcontra
    simp only [Bool.and_eq_true, beq_iff_eq] at hcontra
    exact hall r hr hcontra.1 hcontra.2
  have hany : st.kv.any (fun r => r.key == key) = true := by
    rw [List.any_eq_true]
    rcases hex with ⟨r, hr, hkey⟩
    exact ⟨r, hr, by simp [hkey]⟩
  have hmap : (st.kv.map fun r =>
      if r.key == key && r.encoding == 2 then
        { r with value := toLe8 (i64Bits (i64OfU64 v)), versionstamp := vs, updatedAt := now }
      else r) = st.kv := by
    have : ∀ r ∈ st.kv, (if r.key == key && r.encoding == 2 then
        { r with value := toLe8 (i64Bits (i64OfU64 v)), versionstamp := vs, updatedAt := now }
      else r) = id r := by
      intro r hr
      have : (r.key == key && r.encoding == 2) = false := by
        cases hk : r.key == key with
        | false => simp
        | true =>
          have : r.encoding ≠ 2 := hall r hr (by simpa using hk)
          simp [this]
      rw [this]
      rfl
    rw [List.map_congr_left this, List.map_id]
  simp only [encodeValue, ne_eq, not_true_eq_false, if_false, hfind]
  unfold numericUpsert
  rw [hany]
  simp only [if_true, hmap]

/-- C5 witness: the amended behaviour at a concrete store. -/
theorem sum_on_non_u64_row_is_silently_skipped_witness :
    handleSumMutation st5 [107] (.u64 5) vsA 0 = .ok st5 :=
  sum_on_non_u64_row_is_silently_skipped st5 [107] 5 vsA 0 (by decide) (by decide)

/-! ### C9 -/

/-- C9 counterexample: decoding a stored tag-2 value of length 1 panics in
`copy_from_slice` — it is not an `InvalidData` error. -/
theorem u64_decode_wrong_length_panics :
    decodeValue [0] 2 =
      .error (.panicked "copy_from_slice: source slice length does not match destination") :=
  rfl

/-- C9 (amended): decoding fails with `InvalidData` when the tag is not in
{1, 2, 3}; when the tag is 2 and the stored length is not 8 the decoding
panics in `copy_from_slice` (it is not an `InvalidData` error); and for
every (value, tag) pair produced by `encode_value` on a representable
value, decoding succeeds and returns the original variant. -/
theorem decode_encode_spec :
    (∀ (value : Bytes) (encoding : Int), encoding ≠ 1 → encoding ≠ 2 → encoding ≠ 3 →
      decodeValue value encoding = .error (.invalidData "Unknown encoding")) ∧
    (∀ value : Bytes, value.length ≠ 8 →
      decodeValue value 2 =
        .error (.panicked "copy_from_slice: source slice length does not match destination")) ∧
    (∀ v : KvValue, wfValue v →
      decodeValue (encodeValue v).1 (encodeValue v).2 = .ok v) := by
  refine ⟨?_, ?_, ?_⟩
  · intro value encoding h1 h2 h3
    unfold decodeValue
    rw [if_neg h1, if_neg h2, if_neg h3]
  · intro value hlen
    unfold decodeValue
    rw [if_neg (by norm_num), if_pos rfl, if_neg hlen]
  · intro v hv
    cases v with
    | v8 d => rfl
    | bytes d => rfl
    | u64 n =>
      unfold wfValue at hv
      show decodeValue (toLe8 n) 2 = .ok (.u64 n)
      unfold decodeValue
      rw [if_neg (by norm_num), if_pos rfl, if_pos (toLe8_length n),
        leBytesToNat_toLe8, Nat.mod_eq_of_lt hv]

/-- C9 witness: the amended behaviour at concrete inputs. -/
theorem decode_encode_spec_witness :
    decodeValue [5] 7 = .error (.invalidData "Unknown encoding") ∧
    decodeValue [0, 0] 2 =
      .error (.panicked "copy_from_slice: source slice length does not match destination") ∧
    decodeValue (encodeValue (.u64 7)).1 (encodeValue (.u64 7)).2 = .ok (.u64 7) :=
  ⟨decode_encode_spec.1 [5] 7 (by decide) (by decide) (by decide),
   decode_encode_spec.2.1 [0, 0] (by decide),
   decode_encode_spec.2.2 (.u64 7) (by decide)⟩

/-! ### C8 helper lemmas: rows written by a commit carry its versionstamp -/

theorem applyEnqueues_ok (st : State) (es : List Enqueue) (st' : State)
    (h : applyEnqueues st es = .ok st') : st' = st := by
  cases es with
  | nil =>
    injection h with h
    exact h.symm
  | cons e rest => cases h

theorem setMutation_versionstamp (st : State) (key : Bytes) (value : KvValue)
    (expireAt : Option Int) (vs : Bytes) (now : Int) :
    ∀ r' ∈ (setMutation st key value expireAt vs now).kv,
      r' ∈ st.kv ∨ r'.versionstamp = vs := by
  intro r' hr'
  unfold setMutation at hr'
  cases hany : st.kv.any (fun r => r.key == key) with
  | true =>
    simp only [hany, if_true] at hr'
    rcases List.mem_map.mp hr' with ⟨r, hr, hfr⟩
    by_cases hk : (r.key == key) = true
    · right; rw [← hfr]; simp [hk]
    · left; rw [← hfr]; simp [hk]; exact hr
  | false =>
    simp only [hany, Bool.false_eq_true, if_false] at hr'
    rcases List.mem_append.mp hr' with h | h
    · exact Or.inl h
    · right
      simp only [List.mem_singleton] at h
      rw [h]

theorem numericUpsert_versionstamp (st : State) (key newBytes vs : Bytes) (now : Int) :
    ∀ r' ∈ (numericUpsert st key newBytes vs now).kv,
      r' ∈ st.kv ∨ r'.versionstamp = vs := by
  intro r' hr'
  unfold numericUpsert at hr'
  cases hany : st.kv.any (fun r => r.key == key) with
  | true =>
    simp only [hany, if_true] at hr'
    rcases List.mem_map.mp hr' with ⟨r, hr, hfr⟩
    by_cases hk : (r.key == key && r.encoding == 2) = true
    · right; rw [← hfr]; simp [hk]
    · left; rw [← hfr]; simp [hk]; exact hr
  | false =>
    simp only [hany, Bool.false_eq_true, if_false] at hr'
    rcases List.mem_append.mp hr' with h | h
    · exact Or.inl h
    · right
      simp only [List.mem_singleton] at h
      rw [h]

theorem handleNumericMutation_ok (opName : String) (combine : Int → Int → Int)
    (st : State) (key : Bytes) (value : KvValue) (vs : Bytes) (now : Int) (st' : State)
    (h : handleNumericMutation opName combine st key value vs now = .ok st') :
    ∃ newBytes, st' = numericUpsert st key newBytes vs now := by
  unfold handleNumericMutation at h
  cases value with
  | u64 v =>
    simp only [encodeValue, ne_eq, not_true_eq_false, if_false] at h
    injection h with h
    exact ⟨_, h.symm⟩
  | v8 d => simp [encodeValue] at h
  | bytes d => simp [encodeValue] at h

theorem applyMutation_versionstamp (vs : Bytes) (now : Int) (st st' : State)
    (m : Mutation) (h : applyMutation vs now st m = .ok st') :
    ∀ r' ∈ st'.kv, r' ∈ st.kv ∨ r'.versionstamp = vs := by
  unfold applyMutation at h
  cases hk : m.kind with
  | set value =>
    rw [hk] at h
    injection h with h
    rw [← h]
    exact setMutation_versionstamp st m.key value m.expireAt vs now
  | delete =>
    rw [hk] at h
    injection h with h
    rw [← h]
    intro r' hr'
    exact Or.inl (List.mem_filter.mp hr').1
  | sum value =>
    rw [hk] at h
    rcases handleNumericMutation_ok _ _ _ _ _ _ _ _ h with ⟨b, hb⟩
    rw [hb]
    exact numericUpsert_versionstamp st m.key b vs now
  | min value =>
    rw [hk] at h
    rcases handleNumericMutation_ok _ _ _ _ _ _ _ _ h with ⟨b, hb⟩
    rw [hb]
    exact numericUpsert_versionstamp st m.key b vs now
  | max value =>
    rw [hk] at h
    rcases handleNumericMutation_ok _ _ _ _ _ _ _ _ h with ⟨b, hb⟩
    rw [hb]
    exact numericUpsert_versionstamp st m.key b vs now
  | setSuffixVersionstampedKey value =>
    rw [hk] at h
    cases hany : st.kv.any (fun r => r.key == m.key ++ vs) with
    | true => simp only [hany, if_true] at h; cases h
    | false =>
      simp only [hany, Bool.false_eq_true, if_false] at h
      injection h with h
      rw [← h]
      intro r' hr'
      rcases List.mem_append.mp hr' with h1 | h1
      · exact Or.inl h1
      · right
        simp only [List.mem_singleton] at h1
        rw [h1]

theorem applyMutations_versionstamp (vs : Bytes) (now : Int) :
    ∀ (ms : List Mutation) (st st' : State),
      applyMutations vs now st ms = .ok st' →
      ∀ r' ∈ st'.kv, r' ∈ st.kv ∨ r'.versionstamp = vs
  | [], st, st', h => by
    injection h with h
    rw [← h]
    exact fun r' hr' => Or.inl hr'
  | m :: rest, st, st', h => by
    unfold applyMutations at h
    cases hm : applyMutation vs now st m with
    | error e => rw [hm] at h; cases h
    | ok st1 =>
      rw [hm] at h
      intro r' hr'
      rcases applyMutations_versionstamp vs now rest st1 st' h r' hr' with h1 | h1
      · exact applyMutation_versionstamp vs now st st1 m hm r' h1
      · exact Or.inr h1

theorem applyMutation_ssvk_fresh (vs : Bytes) (now : Int) (st : State)
    (m : Mutation) (value : KvValue)
    (hkind : m.kind = .setSuffixVersionstampedKey value)
    (habs : ∀ r ∈ st.kv, r.key ≠ m.key ++ vs) :
    applyMutation vs now st m = .ok { st with kv := st.kv ++
      [⟨m.key ++ vs, (encodeValue value).1, (encodeValue value).2,
        vs, now, now, m.expireAt⟩] } := by
  unfold applyMutation
  rw [hkind]
  have hany : st.kv.any (fun r => r.key == m.key ++ vs) = false := by
    rw [← Bool.not_eq_true, List.any_eq_true]
    rintro ⟨r, hr, hrk⟩
    exact habs r hr (by simpa using hrk)
  simp only [hany, Bool.false_eq_true, if_false]

theorem applyMutation_ssvk_dup (vs : Bytes) (now : Int) (st : State)
    (m : Mutation) (value : KvValue)
    (hkind : m.kind = .setSuffixVersionstampedKey value)
    (hex : ∃ r ∈ st.kv, r.key = m.key ++ vs) :
    applyMutation vs now st m = .error (.databaseError dupKeyMsg) := by
  unfold applyMutation
  rw [hkind]
  rcases hex with ⟨r, hr, hrk⟩
  have hany : st.kv.any (fun r => r.key == m.key ++ vs) = true :=
    List.any_eq_true.mpr ⟨r, hr, by simp [hrk]⟩
  simp only [hany, if_true]

/-! ### C8 -/

/-- C8 counterexample: two `SetSuffixVersionstampedKey` mutations with the
same key `"p/"` in one commit both target the key suffixed with the single
commit versionstamp, so the second plain INSERT violates the `kv_store`
primary key and the whole write errors — it does not insert two rows. -/
theorem two_suffix_versionstamped_same_commit_errors :
    atomicWrite vsA 0 emptyState
      ⟨[], [⟨[112, 47], .setSuffixVersionstampedKey (.bytes [121]), none⟩,
            ⟨[112, 47], .setSuffixVersionstampedKey (.bytes [121]), none⟩], []⟩ =
      .error (.databaseError dupKeyMsg) := rfl

/-- C8 (amended): the single generated versionstamp is recorded by every
row a commit writes and is the one returned in the `CommitResult`; a
`SetSuffixVersionstampedKey` mutation inserts a row whose key is the
caller key concatenated with the versionstamp and never updates an
existing row — with the suffixed key already present the plain INSERT
fails with a duplicate-key error.  Consequently two such mutations with
the same key in one commit target the same suffixed key, and the whole
write errors instead of inserting two rows. -/
theorem commit_versionstamp_uniform_and_suffix_insert :
    (∀ (vs : Bytes) (now : Int) (st st' : State) (w : AtomicWrite) (res : CommitResult),
      atomicWrite vs now st w = .ok (some res, st') →
      res.versionstamp = vs ∧ ∀ r' ∈ st'.kv, r' ∈ st.kv ∨ r'.versionstamp = vs) ∧
    (∀ (vs : Bytes) (now : Int) (st : State) (m : Mutation) (value : KvValue),
      m.kind = .setSuffixVersionstampedKey value →
      ((∀ r ∈ st.kv, r.key ≠ m.key ++ vs) →
        applyMutation vs now st m = .ok { st with kv := st.kv ++
          [⟨m.key ++ vs, (encodeValue value).1, (encodeValue value).2, vs, now, now, m.expireAt⟩] }) ∧
      ((∃ r ∈ st.kv, r.key = m.key ++ vs) →
        applyMutation vs now st m = .error (.databaseError dupKeyMsg))) ∧
    (∀ (vs : Bytes) (now : Int) (st : State) (key : Bytes) (value : KvValue)
        (e1 e2 : Option Int),
      atomicWrite vs now st
        ⟨[], [⟨key, .setSuffixVersionstampedKey value, e1⟩,
              ⟨key, .setSuffixVersionstampedKey value, e2⟩], []⟩ =
        .error (.databaseError dupKeyMsg)) := by
  refine ⟨?_, ?_, ?_⟩
  · intro vs now st st' w res h
    unfold atomicWrite at h
    cases hc : checksPass st w.checks with
    | false => rw [hc] at h; simp at h
    | true =>
      rw [hc, if_pos rfl] at h
      cases hm : applyMutations vs now st w.mutations with
      | error e => rw [hm] at h; cases h
      | ok st1 =>
        rw [hm] at h
        have h2 : (match applyEnqueues st1 w.enqueues with
            | Except.error e => Except.error e
            | Except.ok st2 =>
              Except.ok (some ({ versionstamp := vs } : CommitResult), st2)) =
            Except.ok (some res, st') := h
        cases hq : applyEnqueues st1 w.enqueues with
        | error e => rw [hq] at h2; cases h2
        | ok st2 =>
          rw [hq] at h2
          simp only [Except.ok.injEq, Prod.mk.injEq, Option.some.injEq] at h2
          refine ⟨by rw [← h2.1], ?_⟩
          intro r' hr'
          rw [← h2.2, applyEnqueues_ok st1 w.enqueues st2 hq] at hr'
          exact applyMutations_versionstamp vs now w.mutations st st1 hm r' hr'
  · intro vs now st m value hkind
    exact ⟨fun habs => applyMutation_ssvk_fresh vs now st m value hkind habs,
      fun hex => applyMutation_ssvk_dup vs now st m value hkind hex⟩
  · intro vs now st key value e1 e2
    unfold atomicWrite
    simp only [checksPass, if_true]
    by_cases hex : ∃ r ∈ st.kv, r.key = key ++ vs
    · have h1 := applyMutation_ssvk_dup vs now st
        ⟨key, .setSuffixVersionstampedKey value, e1⟩ value rfl hex
      unfold applyMutations
      rw [h1]
    · have habs : ∀ r ∈ st.kv, r.key ≠ key ++ vs := by
        intro r hr hrk
        exact hex ⟨r, hr, hrk⟩
      have h1 := applyMutation_ssvk_fresh vs now st
        ⟨key, .setSuffixVersionstampedKey value, e1⟩ value rfl habs
      unfold applyMutations
      rw [h1]
      have h2 := applyMutation_ssvk_dup vs now
        { st with kv := st.kv ++
          [⟨key ++ vs, (encodeValue value).1, (encodeValue value).2, vs, now, now, e1⟩] }
        ⟨key, .setSuffixVersionstampedKey value, e2⟩ value rfl
        ⟨⟨key ++ vs, (encodeValue value).1, (encodeValue value).2, vs, now, now, e1⟩,
          List.mem_append_right _ (List.mem_singleton.mpr rfl), rfl⟩
      unfold applyMutations
      rw [h2]

/-- C8 witness: the amended behaviour at concrete inputs — a committed
`Set` write returns its generated versionstamp and stamps the row it
writes, and the suffix-versionstamped insert succeeds on a fresh suffixed
key and errors on an occupied one. -/
theorem commit_versionstamp_uniform_and_suffix_insert_witness :
    ((⟨vsA⟩ : CommitResult).versionstamp = vsA ∧
      ∀ r' ∈ (⟨[⟨[97], [120], 3, vsA, 0, 0, none⟩], [], [], 0⟩ : State).kv,
        r' ∈ emptyState.kv ∨ r'.versionstamp = vsA) ∧
    (applyMutation vsA 0 emptyState ⟨[112, 47], .setSuffixVersionstampedKey (.bytes [121]), none⟩ =
      .ok { emptyState with kv := emptyState.kv ++
        [⟨[112, 47] ++ vsA, (encodeValue (.bytes [121])).1, (encodeValue (.bytes [121])).2,
          vsA, 0, 0, none⟩] }) ∧
    (applyMutation vsA 0 ⟨[⟨[112, 47] ++ vsA, [121], 3, vsA, 0, 0, none⟩], [], [], 0⟩
        ⟨[112, 47], .setSuffixVersionstampedKey (.bytes [121]), none⟩ =
      .error (.databaseError dupKeyMsg)) :=
  ⟨commit_versionstamp_uniform_and_suffix_insert.1 vsA 0 emptyState
      ⟨[⟨[97], [120], 3, vsA, 0, 0, none⟩], [], [], 0⟩
      ⟨[], [⟨[97], .set (.bytes [120]), none⟩], []⟩ ⟨vsA⟩ rfl,
   (commit_versionstamp_uniform_and_suffix_insert.2.1 vsA 0 emptyState
      ⟨[112, 47], .setSuffixVersionstampedKey (.bytes [121]), none⟩ (.bytes [121]) rfl).1
      (by decide),
   (commit_versionstamp_uniform_and_suffix_insert.2.1 vsA 0
      ⟨[⟨[112, 47] ++ vsA, [121], 3, vsA, 0, 0, none⟩], [], [], 0⟩
      ⟨[112, 47], .setSuffixVersionstampedKey (.bytes [121]), none⟩ (.bytes [121]) rfl).2
      (by decide)⟩

/-! ### C10 -/

/-- Whether a mutation kind is one of the numeric accumulators. -/
def MutationKind.isNumeric : MutationKind → Bool
  | .sum _ => true
  | .min _ => true
  | .max _ => true
  | _ => false

theorem numericUpsert_frame (st : State) (key newBytes vs : Bytes) (now : Int) :
    ∀ r' ∈ (numericUpsert st key newBytes vs now).kv,
      (∃ r ∈ st.kv, r'.key = r.key ∧ r'.expiresAt = r.expiresAt ∧ r'.createdAt = r.createdAt) ∨
      (r'.expiresAt = none ∧ r'.createdAt = now) := by
  intro r' hr'
  unfold numericUpsert at hr'
  cases hany : st.kv.any (fun r => r.key == key) with
  | true =>
    simp only [hany, if_true] at hr'
    rcases List.mem_map.mp hr' with ⟨r, hr, hfr⟩
    left
    refine ⟨r, hr, ?_⟩
    by_cases hk : (r.key == key) = true <;> by_cases he : (r.encoding == 2) = true <;>
      simp [hk, he] at hfr <;> rw [← hfr] <;> exact ⟨rfl, rfl, rfl⟩
  | false =>
    simp only [hany, Bool.false_eq_true, if_false] at hr'
    rcases List.mem_append.mp hr' with h | h
    · exact Or.inl ⟨r', h, rfl, rfl, rfl⟩
    · right
      simp only [List.mem_singleton] at h
      rw [h]
      exact ⟨rfl, rfl⟩

/-- C10: the numeric accumulators ignore the expire-at field of their
mutation: the result of `applyMutation` on a Sum/Min/Max mutation is
independent of `expire_at`; every row present after a numeric handler
either keeps the `expires_at` and `created_at` of a pre-existing row with
its key or is the fresh insert, which has `expires_at` NULL; a `Set` on a
fresh key, by contrast, stores its `expire_at` in the inserted row. -/
theorem numeric_mutations_ignore_expire_at :
    (∀ (vs : Bytes) (now : Int) (st : State) (key : Bytes) (kind : MutationKind)
        (e1 e2 : Option Int), kind.isNumeric = true →
      applyMutation vs now st ⟨key, kind, e1⟩ = applyMutation vs now st ⟨key, kind, e2⟩) ∧
    (∀ (opName : String) (combine : Int → Int → Int) (st : State) (key : Bytes)
        (value : KvValue) (vs : Bytes) (now : Int) (st' : State),
      handleNumericMutation opName combine st key value vs now = .ok st' →
      ∀ r' ∈ st'.kv,
        (∃ r ∈ st.kv, r'.key = r.key ∧ r'.expiresAt = r.expiresAt ∧ r'.createdAt = r.createdAt) ∨
        (r'.expiresAt = none ∧ r'.createdAt = now)) ∧
    (∀ (vs : Bytes) (now : Int) (st : State) (m : Mutation) (value : KvValue),
      m.kind = .set value → (∀ r ∈ st.kv, r.key ≠ m.key) →
      applyMutation vs now st m = .ok { st with kv := st.kv ++
        [⟨m.key, (encodeValue value).1, (encodeValue value).2, vs, now, now, m.expireAt⟩] }) := by
  refine ⟨?_, ?_, ?_⟩
  · intro vs now st key kind e1 e2 hnum
    cases kind <;> simp [MutationKind.isNumeric] at hnum <;> rfl
  · intro opName combine st key value vs now st' h
    rcases handleNumericMutation_ok opName combine st key value vs now st' h with ⟨b, hb⟩
    rw [hb]
    exact numericUpsert_frame st key b vs now
  · intro vs now st m value hkind habs
    unfold applyMutation
    rw [hkind]
    unfold setMutation
    have hany : st.kv.any (fun r => r.key == m.key) = false := by
      rw [← Bool.not_eq_true, List.any_eq_true]
      rintro ⟨r, hr, hrk⟩
      exact habs r hr (by simpa using hrk)
    simp only [hany, Bool.false_eq_true, if_false]

/-- C10 witness: the frame conditions at concrete inputs. -/
theorem numeric_mutations_ignore_expire_at_witness :
    (applyMutation vsA 0 emptyState ⟨[99], .sum (.u64 1), some 5⟩ =
      applyMutation vsA 0 emptyState ⟨[99], .sum (.u64 1), none⟩) ∧
    (∀ r' ∈ (numericUpsert emptyState [99] (toLe8 (i64Bits (i64OfU64 1))) vsA 0).kv,
      (∃ r ∈ emptyState.kv,
        r'.key = r.key ∧ r'.expiresAt = r.expiresAt ∧ r'.createdAt = r.createdAt) ∨
      (r'.expiresAt = none ∧ r'.createdAt = 0)) ∧
    (applyMutation vsA 0 emptyState ⟨[97], .set (.bytes [120]), some 9⟩ =
      .ok { emptyState with kv := emptyState.kv ++
        [⟨[97], (encodeValue (.bytes [120])).1, (encodeValue (.bytes [120])).2,
          vsA, 0, 0, some 9⟩] }) :=
  ⟨numeric_mutations_ignore_expire_at.1 vsA 0 emptyState [99] (.sum (.u64 1)) (some 5) none rfl,
   numeric_mutations_ignore_expire_at.2.1 "Sum" wrapAdd emptyState [99] (.u64 1) vsA 0
     (numericUpsert emptyState [99] (toLe8 (i64Bits (i64OfU64 1))) vsA 0) rfl,
   numeric_mutations_ignore_expire_at.2.2 vsA 0 emptyState
     ⟨[97], .set (.bytes [120]), some 9⟩ (.bytes [120]) rfl (by decide)⟩

/-! ### C6 -/

/-- The three numeric accumulator mutations, for uniform statements. -/
inductive NumOp where
  | sum
  | min
  | max
deriving DecidableEq

/-- Dispatch to the backend handler of each numeric mutation. -/
def numericHandler : NumOp → State → Bytes → KvValue → Bytes → Int → Except PgError State
  | .sum => handleSumMutation
  | .min => handleMinMutation
  | .max => handleMaxMutation

/-- The specified signed-64-bit combine of each numeric mutation: wrapping
two's-complement addition for Sum, signed min/max otherwise. -/
def numericSpecF : NumOp → Int → Int → Int
  | .sum => wrapAdd
  | .min => fun a b => Min.min a b
  | .max => fun a b => Max.max a b

theorem find?_eq_some_of_unique {α : Type} (p : α → Bool) :
    ∀ (l : List α) (a : α), a ∈ l → p a = true → (∀ x ∈ l, p x = true → x = a) →
      l.find? p = some a
  | [], a, ha, _, _ => absurd ha (List.not_mem_nil a)
  | x :: xs, a, ha, hpa, huniq => by
    cases hx : p x with
    | true =>
      have hxa : x = a := huniq x (List.mem_cons_self x xs) hx
      rw [List.find?_cons_of_pos _ hx, hxa]
    | false =>
      have hax : a ∈ xs := by
        rcases List.mem_cons.mp ha with h | h
        · subst h; rw [hpa] at hx; cases hx
        · exact h
      rw [List.find?_cons_of_neg _ (by simp [hx])]
      exact find?_eq_some_of_unique p xs a hax hpa
        fun y hy hpy => huniq y (List.mem_cons_of_mem x hy) hpy

theorem handleNumericMutation_present (opName : String) (combine : Int → Int → Int)
    (st : State) (k : Bytes) (r : Row) (v : Nat) (vs : Bytes) (now : Int)
    (hr : r ∈ st.kv) (hk : r.key = k) (henc : r.encoding = 2) (hlen : r.value.length = 8)
    (huniq : ∀ x ∈ st.kv, x.key = k → x = r) (hv : v < 2 ^ 64)
    (hlb : -2 ^ 63 ≤ combine (toI64 (leBytesToNat r.value)) (toI64 v))
    (hub : combine (toI64 (leBytesToNat r.value)) (toI64 v) < 2 ^ 63) :
    ∃ st', handleNumericMutation opName combine st k (.u64 v) vs now = .ok st' ∧
      ∃ r' ∈ st'.kv, r'.key = k ∧ r'.encoding = 2 ∧
        toI64 (leBytesToNat r'.value) =
          combine (toI64 (leBytesToNat r.value)) (toI64 v) := by
  have hfind : st.kv.find? (fun x => x.key == k && x.encoding == 2) = some r :=
    find?_eq_some_of_unique _ st.kv r hr (by simp [hk, henc])
      fun x hx hpx => huniq x hx (by
        simp only [Bool.and_eq_true, beq_iff_eq] at hpx
        exact hpx.1)
  refine ⟨numericUpsert st k
      (toLe8 (i64Bits (combine (toI64 (leBytesToNat r.value)) (i64OfU64 v)))) vs now, ?_, ?_⟩
  · unfold handleNumericMutation
    simp only [encodeValue, ne_eq, not_true_eq_false, if_false, hfind, if_pos hlen]
  · have hany : st.kv.any (fun x => x.key == k) = true :=
      List.any_eq_true.mpr ⟨r, hr, by simp [hk]⟩
    rw [i64OfU64_eq v hv]
    unfold numericUpsert
    rw [hany, if_pos rfl]
    refine ⟨{ r with
        value := toLe8 (i64Bits (combine (toI64 (leBytesToNat r.value)) (toI64 v))),
        versionstamp := vs, updatedAt := now }, ?_, hk, henc, ?_⟩
    · refine List.mem_map.mpr ⟨r, hr, ?_⟩
      rw [if_pos (by simp [hk, henc])]
    · rw [leBytesToNat_toLe8,
        Nat.mod_eq_of_lt (i64Bits_lt _),
        toI64_i64Bits _ hlb hub]

theorem handleNumericMutation_absent (opName : String) (combine : Int → Int → Int)
    (st : State) (k : Bytes) (v : Nat) (vs : Bytes) (now : Int)
    (habs : ∀ x ∈ st.kv, x.key ≠ k) (hv : v < 2 ^ 64) :
    handleNumericMutation opName combine st k (.u64 v) vs now =
      .ok { st with kv := st.kv ++ [⟨k, toLe8 v, 2, vs, now, now, none⟩] } := by
  have hfind : st.kv.find? (fun x => x.key == k && x.encoding == 2) = none := by
    rw [List.find?_eq_none]
    intro x hx hpx
    simp only [Bool.and_eq_true, beq_iff_eq] at hpx
    exact habs x hx hpx.1
  have hany : st.kv.any (fun x => x.key == k) = false := by
    rw [← Bool.not_eq_true, List.any_eq_true]
    rintro ⟨x, hx, hxk⟩
    exact habs x hx (by simpa using hxk)
  have hbits : i64Bits (i64OfU64 v) = v := by
    rw [i64OfU64_eq v hv, i64Bits_toI64 v hv]
  unfold handleNumericMutation
  simp only [encodeValue, ne_eq, not_true_eq_false, if_false, hfind, hbits]
  unfold numericUpsert
  simp only [hany, Bool.false_eq_true, if_false]

/-- C6: a Sum/Min/Max with u64 operand on a key holding a u64-tagged
8-byte value leaves the key holding the signed-64-bit combination of the
prior value and the operand — wrapping two's-complement addition for Sum,
signed min/max otherwise; on an absent key the operand bytes are written
directly. -/
theorem numeric_mutation_signed_arithmetic :
    (∀ (op : NumOp) (st : State) (k : Bytes) (r : Row) (v : Nat) (vs : Bytes) (now : Int),
      r ∈ st.kv → r.key = k → r.encoding = 2 → r.value.length = 8 →
      (∀ b ∈ r.value, b < 256) →
      (∀ x ∈ st.kv, x.key = k → x = r) →
      v < 2 ^ 64 →
      ∃ st', numericHandler op st k (.u64 v) vs now = .ok st' ∧
        ∃ r' ∈ st'.kv, r'.key = k ∧ r'.encoding = 2 ∧
          toI64 (leBytesToNat r'.value) =
            numericSpecF op (toI64 (leBytesToNat r.value)) (toI64 v)) ∧
    (∀ (op : NumOp) (st : State) (k : Bytes) (v : Nat) (vs : Bytes) (now : Int),
      (∀ x ∈ st.kv, x.key ≠ k) → v < 2 ^ 64 →
      numericHandler op st k (.u64 v) vs now =
        .ok { st with kv := st.kv ++ [⟨k, toLe8 v, 2, vs, now, now, none⟩] }) := by
  constructor
  · intro op st k r v vs now hr hk henc hlen hbytes huniq hv
    have hcur : leBytesToNat r.value < 2 ^ 64 := leBytesToNat_lt_u64 r.value hbytes hlen
    cases op with
    | sum =>
      exact handleNumericMutation_present "Sum" wrapAdd st k r v vs now
        hr hk henc hlen huniq hv (wrapAdd_lb _ _) (wrapAdd_ub _ _)
    | min =>
      exact handleNumericMutation_present "Min" (fun a b => Min.min a b) st k r v vs now
        hr hk henc hlen huniq hv
        (le_min (toI64_lb _) (toI64_lb _))
        (lt_of_le_of_lt (min_le_left _ _) (toI64_ub _ hcur))
    | max =>
      exact handleNumericMutation_present "Max" (fun a b => Max.max a b) st k r v vs now
        hr hk henc hlen huniq hv
        (le_trans (toI64_lb _) (le_max_left _ _))
        (max_lt (toI64_ub _ hcur) (toI64_ub _ hv))
  · intro op st k v vs now habs hv
    cases op with
    | sum => exact handleNumericMutation_absent "Sum" wrapAdd st k v vs now habs hv
    | min =>
      exact handleNumericMutation_absent "Min" (fun a b => Min.min a b) st k v vs now habs hv
    | max =>
      exact handleNumericMutation_absent "Max" (fun a b => Max.max a b) st k v vs now habs hv

/-- A store holding one u64-tagged row with value 10 under key `[99]`. -/
def st6 : State := ⟨[⟨[99], toLe8 10, 2, vsB, 0, 0, none⟩], [], [], 0⟩

/-- C6 witness: the arithmetic at a concrete store — Sum on a present row
and Min on an absent key. -/
theorem numeric_mutation_signed_arithmetic_witness :
    (∃ st', numericHandler .sum st6 [99] (.u64 5) vsA 0 = .ok st' ∧
      ∃ r' ∈ st'.kv, r'.key = [99] ∧ r'.encoding = 2 ∧
        toI64 (leBytesToNat r'.value) =
          numericSpecF .sum (toI64 (leBytesToNat (toLe8 10))) (toI64 5)) ∧
    numericHandler .min emptyState [99] (.u64 5) vsA 0 =
      .ok { emptyState with kv := emptyState.kv ++ [⟨[99], toLe8 5, 2, vsA, 0, 0, none⟩] } :=
  ⟨numeric_mutation_signed_arithmetic.1 .sum st6 [99] ⟨[99], toLe8 10, 2, vsB, 0, 0, none⟩
      5 vsA 0 (by decide) rfl rfl rfl (by decide) (by decide) (by decide),
   numeric_mutation_signed_arithmetic.2 .min emptyState [99] 5 vsA 0 (by decide) (by decide)⟩

/-! ### C3 -/

/-- A queue state holding one due unleased message: a `queue_messages` row
with BIGINT deadline -1 (one millisecond in the past) whose id has no
`queue_running` lease. -/
def stQ : State := ⟨[], [⟨0, [1, 2, 3], -1, [], none, 0⟩], [], 1⟩

/-- C3 (code defect): `dequeue_next_message` never performs the selection
the claim describes.  Its SELECT cannot even be prepared — the BIGINT
`deadline` column is compared with the timestamptz `NOW()` — so for every
queue state the call returns a database error; in particular a due,
unleased message is neither returned as a handle nor answered with
`None`. -/
theorem dequeue_always_errors :
    (∀ (now : Int) (st : State),
      dequeueNextMessage now st = .error (.databaseError dequeueOpErrMsg)) ∧
    dequeueNextMessage 0 stQ = .error (.databaseError dequeueOpErrMsg) :=
  ⟨fun _ _ => rfl, rfl⟩

/-! ### C7 -/

theorem rowToEntry_ok (r : Row) (hr : wellFormedRow r) :
    ∃ x, rowToEntry r = .ok x ∧ x.key = r.key := by
  rcases hr with ⟨htag, hlen8, hvs⟩
  have hdec : ∃ v, decodeValue r.value r.encoding = .ok v := by
    unfold decodeValue
    rcases htag with h1 | h2 | h3
    · rw [if_pos h1]
      exact ⟨_, rfl⟩
    · rw [if_neg (by rw [h2]; norm_num), if_pos h2, if_pos (hlen8 h2)]
      exact ⟨_, rfl⟩
    · rw [if_neg (by rw [h3]; norm_num), if_neg (by rw [h3]; norm_num), if_pos h3]
      exact ⟨_, rfl⟩
  obtain ⟨v, hv⟩ := hdec
  refine ⟨⟨r.key, v, r.versionstamp⟩, ?_, rfl⟩
  unfold rowToEntry
  rw [hv]
  show (if r.versionstamp.length = 10
      then Except.ok (⟨r.key, v, r.versionstamp⟩ : KvEntry)
      else Except.error
        (DecodeFailure.panicked "copy_from_slice: source slice length does not match destination")) =
    Except.ok ⟨r.key, v, r.versionstamp⟩
  rw [if_pos hvs]

theorem buildEntries_ok (l : List Row) (hwf : ∀ r ∈ l, wellFormedRow r) :
    ∃ es, buildEntries l = .ok es ∧ es.map KvEntry.key = l.map Row.key := by
  induction l with
  | nil => exact ⟨[], rfl, rfl⟩
  | cons r rest ih =>
    obtain ⟨x, hx, hxk⟩ := rowToEntry_ok r (hwf r (List.mem_cons_self r rest))
    obtain ⟨es, hes, hkeys⟩ := ih fun y hy => hwf y (List.mem_cons_of_mem r hy)
    refine ⟨x :: es, ?_, ?_⟩
    · unfold buildEntries
      rw [hx, hes]
    · simp [hkeys, hxk]

theorem take_mergeSort_pairwise (rows : List Row) (n : Nat)
    (le : Row → Row → Bool) (ltk : Bytes → Bytes → Prop)
    (htrans : ∀ a b c : Row, le a b = true → le b c = true → le a c = true)
    (htotal : ∀ a b : Row, (le a b || le b a) = true)
    (hnd : (rows.map Row.key).Nodup)
    (hlt : ∀ a b : Row, le a b = true → a.key ≠ b.key → ltk a.key b.key) :
    List.Pairwise (fun a b : Row => ltk a.key b.key) ((rows.mergeSort le).take n) := by
  have hsorted := List.sorted_mergeSort htrans htotal rows
  have hperm := List.mergeSort_perm rows le
  have hnd2 : ((rows.mergeSort le).map Row.key).Nodup :=
    ((hperm.map Row.key).symm).nodup hnd
  have hndt : (((rows.mergeSort le).take n).map Row.key).Nodup :=
    hnd2.sublist (List.Sublist.map Row.key (List.take_sublist n _))
  have hpwle : List.Pairwise (fun a b : Row => le a b = true) ((rows.mergeSort le).take n) :=
    List.Pairwise.sublist (List.take_sublist n _) hsorted
  have hpwne : List.Pairwise (fun a b : Row => a.key ≠ b.key) ((rows.mergeSort le).take n) :=
    List.pairwise_map.mp hndt
  exact (hpwle.and hpwne).imp fun h => hlt _ _ h.1 h.2

theorem readRange_core (kv : List Row) (s e : Bytes) (n : Nat)
    (hwfr : ∀ r ∈ kv, wellFormedRow r) (hnd : (kv.map Row.key).Nodup)
    (le : Row → Row → Bool) (ltk : Bytes → Bytes → Prop)
    (htrans : ∀ a b c : Row, le a b = true → le b c = true → le a c = true)
    (htotal : ∀ a b : Row, (le a b || le b a) = true)
    (hlt : ∀ a b : Row, le a b = true → a.key ≠ b.key → ltk a.key b.key) :
    ∃ es, buildEntries
        (((kv.filter fun r => lexLe s r.key && lexLt r.key e).mergeSort le).take n) = .ok es ∧
      es.length ≤ n ∧
      (∀ x ∈ es, lexLe s x.key = true ∧ lexLt x.key e = true ∧ ∃ r ∈ kv, r.key = x.key) ∧
      ((kv.filter fun r => lexLe s r.key && lexLt r.key e).length ≤ n →
        ∀ r ∈ kv, lexLe s r.key = true → lexLt r.key e = true → ∃ x ∈ es, x.key = r.key) ∧
      es.Pairwise (fun a b => ltk a.key b.key) ∧
      (s = e → es = []) := by
  have hrowsnd : ((kv.filter fun r => lexLe s r.key && lexLt r.key e).map Row.key).Nodup :=
    hnd.sublist (List.Sublist.map Row.key (List.filter_sublist kv))
  have hperm := List.mergeSort_perm (kv.filter fun r => lexLe s r.key && lexLt r.key e) le
  have hlimsub : (((kv.filter fun r => lexLe s r.key && lexLt r.key e).mergeSort le).take n).Sublist
      ((kv.filter fun r => lexLe s r.key && lexLt r.key e).mergeSort le) :=
    List.take_sublist n _
  have hwflim : ∀ r ∈ ((kv.filter fun r => lexLe s r.key && lexLt r.key e).mergeSort le).take n,
      wellFormedRow r := by
    intro r hr
    have hr2 := hperm.mem_iff.mp (hlimsub.mem hr)
    exact hwfr r (List.mem_filter.mp hr2).1
  obtain ⟨es, hes, hkeys⟩ := buildEntries_ok _ hwflim
  have hlenes : es.length =
      (((kv.filter fun r => lexLe s r.key && lexLt r.key e).mergeSort le).take n).length := by
    rw [← List.length_map es KvEntry.key, hkeys, List.length_map]
  refine ⟨es, hes, ?_, ?_, ?_, ?_, ?_⟩
  · rw [hlenes, List.length_take]
    exact min_le_left _ _
  · intro x hx
    have hk : x.key ∈ (((kv.filter fun r =>
        lexLe s r.key && lexLt r.key e).mergeSort le).take n).map Row.key := by
      rw [← hkeys]
      exact List.mem_map.mpr ⟨x, hx, rfl⟩
    obtain ⟨r, hrlim, hrk⟩ := List.mem_map.mp hk
    have hr2 := hperm.mem_iff.mp (hlimsub.mem hrlim)
    obtain ⟨hrkv, hrfil⟩ := List.mem_filter.mp hr2
    simp only [Bool.and_eq_true] at hrfil
    rw [← hrk]
    exact ⟨hrfil.1, hrfil.2, r, hrkv, rfl⟩
  · intro hcap r hrkv hs he
    have hrfil : r ∈ kv.filter fun r => lexLe s r.key && lexLt r.key e :=
      List.mem_filter.mpr ⟨hrkv, by rw [hs, he]; rfl⟩
    have hlen2 : ((kv.filter fun r => lexLe s r.key && lexLt r.key e).mergeSort le).length ≤ n := by
      rw [hperm.length_eq]
      exact hcap
    have htake : (((kv.filter fun r => lexLe s r.key && lexLt r.key e).mergeSort le).take n) =
        (kv.filter fun r => lexLe s r.key && lexLt r.key e).mergeSort le :=
      List.take_of_length_le hlen2
    have hrlim : r ∈ ((kv.filter fun r => lexLe s r.key && lexLt r.key e).mergeSort le).take n := by
      rw [htake]
      exact hperm.mem_iff.mpr hrfil
    have hk : r.key ∈ es.map KvEntry.key := by
      rw [hkeys]
      exact List.mem_map.mpr ⟨r, hrlim, rfl⟩
    obtain ⟨x, hxes, hxk⟩ := List.mem_map.mp hk
    exact ⟨x, hxes, hxk⟩
  · have hpw := take_mergeSort_pairwise (kv.filter fun r => lexLe s r.key && lexLt r.key e)
      n le ltk htrans htotal hrowsnd hlt
    have hpwmap : List.Pairwise ltk
        ((((kv.filter fun r => lexLe s r.key && lexLt r.key e).mergeSort le).take n).map Row.key) :=
      List.pairwise_map.mpr hpw
    rw [← hkeys] at hpwmap
    exact List.pairwise_map.mp hpwmap
  · intro hse
    subst hse
    have hfil : (kv.filter fun r => lexLe s r.key && lexLt r.key s) = [] := by
      rw [List.filter_eq_nil_iff]
      intro r _ hcontra
      simp only [Bool.and_eq_true] at hcontra
      exact not_lexLe_lexLt s r.key hcontra
    rw [hfil] at hkeys
    simp only [List.mergeSort_nil, List.take_nil, List.map_nil, List.map_eq_nil_iff] at hkeys
    exact hkeys

/-- C7: for every range request on a well-formed store, `read_range`
succeeds and returns exactly the stored rows with
`start <= key < end` in byte-lex order — at most `limit` of them, all of
them when the in-range row count fits the limit — with keys strictly
ascending when `reverse = false` and strictly descending when
`reverse = true`; a request with `start = end` returns the empty
sequence. -/
theorem readRange_spec (st : State) (req : ReadRange) (hwf : WellFormedStore st) :
    ∃ es, readRange st req = .ok es ∧
      es.length ≤ req.limit ∧
      (∀ x ∈ es, lexLe req.start x.key = true ∧ lexLt x.key req.«end» = true ∧
        ∃ r ∈ st.kv, r.key = x.key) ∧
      ((st.kv.filter fun r => lexLe req.start r.key && lexLt r.key req.«end»).length ≤
          req.limit →
        ∀ r ∈ st.kv, lexLe req.start r.key = true → lexLt r.key req.«end» = true →
          ∃ x ∈ es, x.key = r.key) ∧
      (if req.reverse then es.Pairwise fun a b => lexLt b.key a.key = true
       else es.Pairwise fun a b => lexLt a.key b.key = true) ∧
      (req.start = req.«end» → es = []) := by
  cases hrev : req.reverse with
  | false =>
    obtain ⟨es, hes, hlen, hmem, hcomp, hpw, hempty⟩ :=
      readRange_core st.kv req.start req.«end» req.limit hwf.1 hwf.2
        (fun a b => lexLe a.key b.key) (fun a b => lexLt a b = true)
        (fun a b c hab hbc => lexLe_trans _ _ _ hab hbc)
        (fun a b => lexLe_total _ _)
        (fun a b hab hne => lexLt_of_lexLe_ne _ _ hab hne)
    refine ⟨es, ?_, hlen, hmem, hcomp, ?_, hempty⟩
    · unfold readRange
      rw [hrev]
      simp only [Bool.false_eq_true, if_false]
      exact hes
    · simp only [Bool.false_eq_true, if_false]
      exact hpw
  | true =>
    obtain ⟨es, hes, hlen, hmem, hcomp, hpw, hempty⟩ :=
      readRange_core st.kv req.start req.«end» req.limit hwf.1 hwf.2
        (fun a b => lexLe b.key a.key) (fun a b => lexLt b a = true)
        (fun a b c hab hbc => lexLe_trans _ _ _ hbc hab)
        (fun a b => lexLe_total _ _)
        (fun a b hab hne => lexLt_of_lexLe_ne _ _ hab (Ne.symm hne))
    refine ⟨es, ?_, hlen, hmem, hcomp, ?_, hempty⟩
    · unfold readRange
      rw [hrev]
      simp only [if_true]
      exact hes
    · simp only [if_true]
      exact hpw

/-- A well-formed two-row store for the C7 witness. -/
def st7 : State :=
  ⟨[⟨[2], [120], 3, vsA, 0, 0, none⟩, ⟨[1], [121], 1, vsB, 0, 0, none⟩], [], [], 0⟩

/-- C7 witness: the range-read contract at a concrete well-formed store
and request. -/
theorem readRange_spec_witness :
    WellFormedStore st7 ∧
    (∃ es, readRange st7 ⟨[0], [9], 5, false⟩ = .ok es ∧
      es.length ≤ (⟨[0], [9], 5, false⟩ : ReadRange).limit ∧
      (∀ x ∈ es,
        lexLe (⟨[0], [9], 5, false⟩ : ReadRange).start x.key = true ∧
        lexLt x.key (⟨[0], [9], 5, false⟩ : ReadRange).«end» = true ∧
        ∃ r ∈ st7.kv, r.key = x.key) ∧
      ((st7.kv.filter fun r =>
          lexLe (⟨[0], [9], 5, false⟩ : ReadRange).start r.key &&
          lexLt r.key (⟨[0], [9], 5, false⟩ : ReadRange).«end»).length ≤
            (⟨[0], [9], 5, false⟩ : ReadRange).limit →
        ∀ r ∈ st7.kv,
          lexLe (⟨[0], [9], 5, false⟩ : ReadRange).start r.key = true →
          lexLt r.key (⟨[0], [9], 5, false⟩ : ReadRange).«end» = true →
          ∃ x ∈ es, x.key = r.key) ∧
      (if (⟨[0], [9], 5, false⟩ : ReadRange).reverse then
        es.Pairwise fun a b => lexLt b.key a.key = true
       else es.Pairwise fun a b => lexLt a.key b.key = true) ∧
      ((⟨[0], [9], 5, false⟩ : ReadRange).start =
          (⟨[0], [9], 5, false⟩ : ReadRange).«end» → es = [])) :=
  ⟨by decide, readRange_spec st7 ⟨[0], [9], 5, false⟩ (by decide)⟩

end DenoKvPg
